import Mathlib

/-!
Verification of the streaming authenticated-encryption codec of
signalapp/storage-manager (workers/src/encrypt.ts).

Shallow embedding choices:
- bytes are natural numbers, byte strings are lists of naturals;
- the one-shot WebCrypto primitive subtle.encrypt with AES-CBC is modelled by
  an explicit parameter oneShot : Bytes -> Bytes -> Bytes (iv, plaintext to
  ciphertext); claims about genuine CBC behaviour instantiate it with
  cbcEncrypt E, CBC mode with PKCS7 padding over an abstract 16-byte block
  permutation E (the keyed AES block function);
- the incremental node HMAC object is modelled by the accumulated message
  (field hmacMsg) together with a digest function mac : Bytes -> Bytes;
- the WritableStream writer is modelled as a Sink: a trace of events (writes
  and a close) plus a schedule ok : Nat -> Bool telling which write calls
  succeed, so failure paths of the stream pump are expressible;
- the readable source stream is a list of chunks, each either a delivered
  byte chunk (Except.ok) or a point where the source fails (Except.error).
-/

namespace StorageManager

/-- Byte strings: lists of naturals (byte values). -/
abbrev Bytes := List Nat

/-- The error taxonomy of encrypt.ts: invalid IV length at construction,
non-block-aligned input (thrown in Encrypter.encrypt and in streamEncrypt for
the buffer size), unexpected one-shot output length, plaintext length above
the safe-integer bound, and failures of the external source or sink. -/
inductive EncError where
  | invalidIv
  | alignment
  | integrity
  | lengthOverflow
  | sourceFailed
  | sinkFailed
deriving DecidableEq, Repr

/-- Events observed by the destination stream: payload writes and close. -/
inductive SinkEvent where
  | write (b : Bytes)
  | close
deriving DecidableEq, Repr

/-- The destination writer: a schedule of which write calls succeed, the
trace of events so far, and the number of write calls made so far. -/
structure Sink where
  ok : Nat → Bool
  events : List SinkEvent
  count : Nat

/-- dst.write: appends a write event and succeeds according to the schedule;
a failed write leaves the sink unchanged and raises sinkFailed. -/
def Sink.write (s : Sink) (b : Bytes) : (Except EncError Unit) × Sink :=
  if s.ok s.count then
    (.ok (), { s with events := s.events ++ [SinkEvent.write b], count := s.count + 1 })
  else (.error .sinkFailed, s)

/-- Number.MAX_SAFE_INTEGER. -/
def MAX_SAFE_INTEGER : Nat := 9007199254740991

/-- const MAX_PLAINTEXT_LENGTH = Number.MAX_SAFE_INTEGER - 32 - 16 - 16. -/
def MAX_PLAINTEXT_LENGTH : Nat := MAX_SAFE_INTEGER - 32 - 16 - 16

/-- The Encrypter session state: the mutable 16-byte chaining value
(field iv, updated by each encrypt call) and the message accumulated so far
by the running HMAC (field hmacMsg). The AES key handle and the HMAC key
live outside the state, as the parameters oneShot and mac of the
operations. -/
structure Encrypter where
  iv : Bytes
  hmacMsg : Bytes
deriving DecidableEq, Repr

/-- The constructor: rejects an IV whose length is not 16, then stores a copy
of the IV as the initial chaining value; the HMAC has consumed nothing yet. -/
def Encrypter.create (iv : Bytes) : Except EncError Encrypter :=
  if iv.length ≠ 16 then .error .invalidIv
  else .ok { iv := iv, hmacMsg := [] }

/-- encryptedLength: reject a plaintext length above MAX_PLAINTEXT_LENGTH,
otherwise iv.length + numBlocks * 16 + 32 with
numBlocks = ceil((plaintextLength + 1) / 16). -/
def Encrypter.encryptedLength (e : Encrypter) (plaintextLength : Nat) :
    Except EncError Nat :=
  if plaintextLength > MAX_PLAINTEXT_LENGTH then .error .lengthOverflow
  else .ok (e.iv.length + ((plaintextLength + 1 + 15) / 16) * 16 + 32)

/-- init: write the IV to the destination, then feed it to the HMAC. -/
def Encrypter.init (e : Encrypter) (s : Sink) : (Except EncError Encrypter) × Sink :=
  match s.write e.iv with
  | (.error er, s1) => (.error er, s1)
  | (.ok _, s1) => (.ok { e with hmacMsg := e.hmacMsg ++ e.iv }, s1)

/-- encrypt: reject non-block-aligned plaintext; run the one-shot primitive
on the current chaining value; reject an output that is not exactly one
padding block longer than the plaintext; trim the padding block off; set the
chaining value to the last 16 bytes of the trimmed ciphertext (a set of a
possibly shorter prefix, as Uint8Array.set does); write the trimmed
ciphertext and feed it to the HMAC. -/
def Encrypter.encrypt (oneShot : Bytes → Bytes → Bytes) (e : Encrypter) (s : Sink)
    (plaintext : Bytes) : (Except EncError Encrypter) × Sink :=
  if plaintext.length % 16 ≠ 0 then (.error .alignment, s)
  else
    let encrypted := oneShot e.iv plaintext
    if encrypted.length ≠ plaintext.length + 16 then (.error .integrity, s)
    else
      let trimmed := encrypted.take (encrypted.length - 16)
      let tail := trimmed.drop (trimmed.length - 16)
      let newIv := tail ++ e.iv.drop tail.length
      match s.write trimmed with
      | (.error er, s1) => (.error er, s1)
      | (.ok _, s1) => (.ok { iv := newIv, hmacMsg := e.hmacMsg ++ trimmed }, s1)

/-- finish: run the one-shot primitive on the remaining plaintext (padding
included this time), write the result, feed it to the HMAC, then write the
HMAC digest of everything accumulated. -/
def Encrypter.finish (oneShot : Bytes → Bytes → Bytes) (mac : Bytes → Bytes)
    (e : Encrypter) (s : Sink) (plaintext : Bytes) : (Except EncError Unit) × Sink :=
  let encrypted := oneShot e.iv plaintext
  match s.write encrypted with
  | (.error er, s1) => (.error er, s1)
  | (.ok _, s1) =>
    match s1.write (mac (e.hmacMsg ++ encrypted)) with
    | (.error er, s2) => (.error er, s2)
    | (.ok _, s2) => (.ok (), s2)

/-!  The reference model of the one-shot primitive: AES-256-CBC with PKCS7
padding, over an abstract keyed block permutation E on 16-byte blocks. -/

/-- Pointwise xor of two byte strings (length = the shorter of the two). -/
def xorBytes (a b : Bytes) : Bytes := List.zipWith (fun x y => x ^^^ y) a b

/-- Split a byte string into 16-byte blocks (the last may be shorter,
though this model only ever splits strings of block-multiple length). -/
def toBlocks : Bytes → List Bytes
  | [] => []
  | x :: rest => ((x :: rest).take 16) :: toBlocks ((x :: rest).drop 16)
termination_by l => l.length
decreasing_by
  simp only [List.length_drop, List.length_cons]
  omega

/-- CBC encryption of a block list: each ciphertext block is E of the xor of
the running chaining value with the plaintext block. -/
def cbcBlocks (E : Bytes → Bytes) (iv : Bytes) : List Bytes → List Bytes
  | [] => []
  | b :: rest => E (xorBytes iv b) :: cbcBlocks E (E (xorBytes iv b)) rest

/-- The chaining value after CBC-encrypting a block list. -/
def chainBlocks (E : Bytes → Bytes) (iv : Bytes) : List Bytes → Bytes
  | [] => iv
  | b :: rest => chainBlocks E (E (xorBytes iv b)) rest

/-- Raw CBC over a (block-aligned) byte string, without padding. -/
def cbcCore (E : Bytes → Bytes) (iv pt : Bytes) : Bytes :=
  (cbcBlocks E iv (toBlocks pt)).flatten

/-- The CBC chaining value after a (block-aligned) byte string. -/
def chainAfter (E : Bytes → Bytes) (iv pt : Bytes) : Bytes :=
  chainBlocks E iv (toBlocks pt)

/-- PKCS7 padding: append k copies of k, where k = 16 - length mod 16
(a full padding block when the input is already block-aligned). -/
def pkcs7pad (pt : Bytes) : Bytes :=
  pt ++ List.replicate (16 - pt.length % 16) (16 - pt.length % 16)

/-- The one-shot primitive of the platform: CBC with PKCS7 padding. -/
def cbcEncrypt (E : Bytes → Bytes) (iv pt : Bytes) : Bytes :=
  cbcCore E iv (pkcs7pad pt)

/-!  The stream pump (streamEncrypt). -/

/-- bufferSize resolution: a missing or zero (falsy) argument becomes the
default of 1 MiB, mirroring the expression bufferSize or 1024 * 1024. -/
def effBufferSize : Option Nat → Nat
  | none => 1024 * 1024
  | some n => if n = 0 then 1024 * 1024 else n

/-- The inner do-while of streamEncrypt: copy as much of the chunk as fits
into the staging buffer; when the buffer becomes exactly full, encrypt and
flush it; keep going while part of the chunk remains. The invariant that the
staging buffer is strictly below capacity at loop boundaries is carried as a
hypothesis so the recursion is well-founded. -/
def pumpChunk (oneShot : Bytes → Bytes → Bytes) (bs : Nat) (e : Encrypter)
    (buf : Bytes) (s : Sink) (chunk : Bytes) (hbuf : buf.length < bs) :
    (Except EncError (Encrypter × { b : Bytes // b.length < bs })) × Sink :=
  if hfull : (buf ++ chunk.take (min (bs - buf.length) chunk.length)).length = bs then
    match Encrypter.encrypt oneShot e s
        (buf ++ chunk.take (min (bs - buf.length) chunk.length)) with
    | (.error er, s1) => (.error er, s1)
    | (.ok e1, s1) =>
      if hrem : min (bs - buf.length) chunk.length < chunk.length then
        pumpChunk oneShot bs e1 [] s1
          (chunk.drop (min (bs - buf.length) chunk.length))
          (by simp only [List.length_nil]; omega)
      else
        (.ok (e1, ⟨[], by
          simp only [List.length_nil]
          exact Nat.lt_of_le_of_lt (Nat.zero_le _) hbuf⟩), s1)
  else
    if hrem : min (bs - buf.length) chunk.length < chunk.length then
      pumpChunk oneShot bs e
        (buf ++ chunk.take (min (bs - buf.length) chunk.length)) s
        (chunk.drop (min (bs - buf.length) chunk.length))
        (by
          have ht : (chunk.take (min (bs - buf.length) chunk.length)).length
              = min (bs - buf.length) chunk.length := by
            simp [List.length_take]
          rw [List.length_append, ht] at hfull ⊢
          omega)
    else
      (.ok (e, ⟨buf ++ chunk.take (min (bs - buf.length) chunk.length), by
        have ht : (chunk.take (min (bs - buf.length) chunk.length)).length
            = min (bs - buf.length) chunk.length := by
          simp [List.length_take]
        rw [List.length_append, ht] at hfull ⊢
        omega⟩), s)
termination_by chunk.length
decreasing_by
  · simp only [List.length_drop]
    omega
  · simp only [List.length_drop]
    omega

/-- The for-await loop of streamEncrypt over the source: feed each delivered
chunk through the inner loop; a failing source entry aborts the loop with
sourceFailed (the trace keeps whatever was already written). -/
def pumpSource (oneShot : Bytes → Bytes → Bytes) (bs : Nat) :
    Encrypter → (buf : Bytes) → Sink → buf.length < bs → List (Except Unit Bytes) →
    (Except EncError (Encrypter × { b : Bytes // b.length < bs })) × Sink
  | e, buf, s, hbuf, [] => (.ok (e, ⟨buf, hbuf⟩), s)
  | _, _, s, _, .error _ :: _ => (.error .sourceFailed, s)
  | e, buf, s, hbuf, .ok c :: rest =>
    match pumpChunk oneShot bs e buf s c hbuf with
    | (.error er, s1) => (.error er, s1)
    | (.ok (e1, ⟨buf1, h1⟩), s1) => pumpSource oneShot bs e1 buf1 s1 h1 rest

/-- The part of streamEncrypt from getWriter on: acquire the writer, run
init, the pump loop and finish; whatever the outcome, the writer is closed
at the end (the finally block). The resolved buffer size is positive because
a falsy argument was replaced by the default. -/
def streamEncryptCore (oneShot : Bytes → Bytes → Bytes) (mac : Bytes → Bytes)
    (encrypter : Encrypter) (source : List (Except Unit Bytes)) (sinkOk : Nat → Bool)
    (bs : Nat) (hbs : 0 < bs) : (Except EncError Unit) × List SinkEvent :=
  let s0 : Sink := { ok := sinkOk, events := [], count := 0 }
  let body : (Except EncError Unit) × Sink :=
    match Encrypter.init encrypter s0 with
    | (.error er, s1) => (.error er, s1)
    | (.ok e1, s1) =>
      match pumpSource oneShot bs e1 [] s1
          (by simp only [List.length_nil]; exact hbs) source with
      | (.error er, s2) => (.error er, s2)
      | (.ok (e2, ⟨buf2, _⟩), s2) => Encrypter.finish oneShot mac e2 s2 buf2
  (body.1, body.2.events ++ [SinkEvent.close])

/-- streamEncrypt: resolve the buffer size (default on a falsy argument),
reject a size that is not a multiple of 16 before touching source or sink,
then run the guarded body. -/
def streamEncrypt (oneShot : Bytes → Bytes → Bytes) (mac : Bytes → Bytes)
    (encrypter : Encrypter) (source : List (Except Unit Bytes)) (sinkOk : Nat → Bool)
    (bufferSize : Option Nat) : (Except EncError Unit) × List SinkEvent :=
  if effBufferSize bufferSize % 16 ≠ 0 then (.error .alignment, [])
  else
    streamEncryptCore oneShot mac encrypter source sinkOk (effBufferSize bufferSize)
      (by
        cases bufferSize with
        | none => simp [effBufferSize]
        | some n =>
          simp only [effBufferSize]
          split <;> omega)

/-- A sequence of non-final encrypt calls on one session. -/
def encryptList (oneShot : Bytes → Bytes → Bytes) :
    Encrypter → Sink → List Bytes → (Except EncError Encrypter) × Sink
  | e, s, [] => (.ok e, s)
  | e, s, pt :: rest =>
    match Encrypter.encrypt oneShot e s pt with
    | (.error er, s1) => (.error er, s1)
    | (.ok e1, s1) => encryptList oneShot e1 s1 rest

/-- One complete session at the Encrypter level: init, zero or more aligned
encrypt calls, one finish call on the tail. -/
def runSession (oneShot : Bytes → Bytes → Bytes) (mac : Bytes → Bytes)
    (e : Encrypter) (s : Sink) (bufs : List Bytes) (tail : Bytes) :
    (Except EncError Unit) × Sink :=
  match Encrypter.init e s with
  | (.error er, s1) => (.error er, s1)
  | (.ok e1, s1) =>
    match encryptList oneShot e1 s1 bufs with
    | (.error er, s2) => (.error er, s2)
    | (.ok e2, s2) => Encrypter.finish oneShot mac e2 s2 tail

/-- The bytes carried by one sink event (close carries none). -/
def SinkEvent.payload : SinkEvent → Bytes
  | .write b => b
  | .close => []

/-- All bytes delivered to the sink by a trace, in order. -/
def writtenBytes (evs : List SinkEvent) : Bytes :=
  (evs.map SinkEvent.payload).flatten

/-- A fresh sink that accepts every write. -/
def alwaysOkSink : Sink := { ok := fun _ => true, events := [], count := 0 }

/-!  Lemmas about block splitting. -/

theorem toBlocks_nil : toBlocks [] = [] := by
  rw [toBlocks]

theorem toBlocks_cons_eq (l : Bytes) (h : l ≠ []) :
    toBlocks l = l.take 16 :: toBlocks (l.drop 16) := by
  match l with
  | [] => exact absurd rfl h
  | x :: rest => rw [toBlocks]

theorem toBlocks_flatten (l : Bytes) : (toBlocks l).flatten = l := by
  induction l using toBlocks.induct with
  | case1 => simp [toBlocks_nil]
  | case2 x rest ih =>
    rw [toBlocks_cons_eq _ (by simp), List.flatten_cons, ih, List.take_append_drop]

theorem toBlocks_append (l1 l2 : Bytes) (h : l1.length % 16 = 0) :
    toBlocks (l1 ++ l2) = toBlocks l1 ++ toBlocks l2 := by
  induction l1 using toBlocks.induct with
  | case1 => simp [toBlocks_nil]
  | case2 x rest ih =>
    simp only [List.length_cons] at h
    have h16 : 16 ≤ (x :: rest).length := by
      simp only [List.length_cons]
      omega
    have hd : ((x :: rest).drop 16).length % 16 = 0 := by
      simp only [List.length_drop, List.length_cons]
      omega
    rw [toBlocks_cons_eq ((x :: rest) ++ l2) (by simp),
      toBlocks_cons_eq (x :: rest) (by simp),
      List.take_append_of_le_length h16, List.drop_append_of_le_length h16,
      ih hd]
    simp

theorem toBlocks_length_mem (l : Bytes) (h : l.length % 16 = 0) :
    ∀ b ∈ toBlocks l, b.length = 16 := by
  induction l using toBlocks.induct with
  | case1 => simp [toBlocks_nil]
  | case2 x rest ih =>
    simp only [List.length_cons] at h
    have hd : ((x :: rest).drop 16).length % 16 = 0 := by
      simp only [List.length_drop, List.length_cons]
      omega
    rw [toBlocks_cons_eq _ (by simp)]
    intro b hb
    rcases List.mem_cons.mp hb with hb | hb
    · subst hb
      simp only [List.length_take, List.length_cons]
      omega
    · exact ih hd b hb

theorem toBlocks_count (l : Bytes) (h : l.length % 16 = 0) :
    (toBlocks l).length = l.length / 16 := by
  induction l using toBlocks.induct with
  | case1 => simp [toBlocks_nil]
  | case2 x rest ih =>
    simp only [List.length_cons] at h
    have hd : ((x :: rest).drop 16).length % 16 = 0 := by
      simp only [List.length_drop, List.length_cons]
      omega
    rw [toBlocks_cons_eq _ (by simp), List.length_cons, ih hd]
    simp only [List.length_drop, List.length_cons]
    omega

theorem toBlocks_ne_nil (l : Bytes) (h : l ≠ []) : toBlocks l ≠ [] := by
  rw [toBlocks_cons_eq l h]
  simp

/-!  Lemmas about the CBC reference model. -/

theorem xorBytes_length (a b : Bytes) : (xorBytes a b).length = min a.length b.length := by
  simp [xorBytes]

theorem cbcBlocks_append (E : Bytes → Bytes) (iv : Bytes) (b1 b2 : List Bytes) :
    cbcBlocks E iv (b1 ++ b2) =
      cbcBlocks E iv b1 ++ cbcBlocks E (chainBlocks E iv b1) b2 := by
  induction b1 generalizing iv with
  | nil => simp [cbcBlocks, chainBlocks]
  | cons b rest ih => simp [cbcBlocks, chainBlocks, ih]

theorem chainBlocks_append (E : Bytes → Bytes) (iv : Bytes) (b1 b2 : List Bytes) :
    chainBlocks E iv (b1 ++ b2) = chainBlocks E (chainBlocks E iv b1) b2 := by
  induction b1 generalizing iv with
  | nil => simp [chainBlocks]
  | cons b rest ih => simp [chainBlocks, ih]

theorem cbcBlocks_length_mem (E : Bytes → Bytes)
    (hE : ∀ b, b.length = 16 → (E b).length = 16) (iv : Bytes) (blocks : List Bytes)
    (hiv : iv.length = 16) (hbl : ∀ b ∈ blocks, b.length = 16) :
    ∀ c ∈ cbcBlocks E iv blocks, c.length = 16 := by
  induction blocks generalizing iv with
  | nil => simp [cbcBlocks]
  | cons b rest ih =>
    have hc : (E (xorBytes iv b)).length = 16 := by
      apply hE
      rw [xorBytes_length, hiv, hbl b (by simp)]
      simp
    intro c hmem
    rw [cbcBlocks] at hmem
    rcases List.mem_cons.mp hmem with hc2 | hc2
    · rw [hc2]; exact hc
    · exact ih _ hc (fun x hx => hbl x (by simp [hx])) c hc2

theorem chainBlocks_length (E : Bytes → Bytes)
    (hE : ∀ b, b.length = 16 → (E b).length = 16) (iv : Bytes) (blocks : List Bytes)
    (hiv : iv.length = 16) (hbl : ∀ b ∈ blocks, b.length = 16) :
    (chainBlocks E iv blocks).length = 16 := by
  induction blocks generalizing iv with
  | nil => simpa [chainBlocks] using hiv
  | cons b rest ih =>
    rw [chainBlocks]
    apply ih
    · apply hE
      rw [xorBytes_length, hiv, hbl b (by simp)]
      simp
    · exact fun x hx => hbl x (by simp [hx])

theorem flatten_length_of_blocks (blocks : List Bytes)
    (hbl : ∀ b ∈ blocks, b.length = 16) :
    blocks.flatten.length = 16 * blocks.length := by
  induction blocks with
  | nil => simp
  | cons b rest ih =>
    rw [List.flatten_cons, List.length_append, hbl b (by simp),
      ih (fun x hx => hbl x (by simp [hx]))]
    simp
    ring

theorem flatten_drop_chain (E : Bytes → Bytes)
    (hE : ∀ b, b.length = 16 → (E b).length = 16) (iv : Bytes) (blocks : List Bytes)
    (hiv : iv.length = 16) (hbl : ∀ b ∈ blocks, b.length = 16) (hne : blocks ≠ []) :
    ((cbcBlocks E iv blocks).flatten).drop (16 * blocks.length - 16) =
      chainBlocks E iv blocks := by
  induction blocks generalizing iv with
  | nil => exact absurd rfl hne
  | cons b rest ih =>
    have hc : (E (xorBytes iv b)).length = 16 := by
      apply hE
      rw [xorBytes_length, hiv, hbl b (by simp)]
      simp
    match rest with
    | [] => simp [cbcBlocks, chainBlocks]
    | b2 :: rest2 =>
      rw [cbcBlocks, List.flatten_cons, chainBlocks]
      have hlen : 16 * (b :: b2 :: rest2).length - 16 =
          (E (xorBytes iv b)).length + (16 * (b2 :: rest2).length - 16) := by
        rw [hc]
        simp
        omega
      rw [hlen, List.drop_append]
      exact ih _ hc (fun x hx => hbl x (by simp [hx])) (by simp)

/-!  Lemmas about padding and the composed CBC functions. -/

theorem pkcs7pad_length (pt : Bytes) :
    (pkcs7pad pt).length = pt.length + (16 - pt.length % 16) := by
  simp [pkcs7pad]

theorem pkcs7pad_mod (pt : Bytes) : (pkcs7pad pt).length % 16 = 0 := by
  rw [pkcs7pad_length]
  omega

theorem pkcs7pad_align (p1 p2 : Bytes) (h : p1.length % 16 = 0) :
    pkcs7pad (p1 ++ p2) = p1 ++ pkcs7pad p2 := by
  have hm : (p1 ++ p2).length % 16 = p2.length % 16 := by
    rw [List.length_append]
    omega
  rw [pkcs7pad, pkcs7pad, hm, List.append_assoc]

theorem pkcs7pad_of_aligned (pt : Bytes) (h : pt.length % 16 = 0) :
    pkcs7pad pt = pt ++ List.replicate 16 16 := by
  rw [pkcs7pad, h]

theorem cbcCore_nil (E : Bytes → Bytes) (iv : Bytes) : cbcCore E iv [] = [] := by
  simp [cbcCore, toBlocks_nil, cbcBlocks]

theorem chainAfter_nil (E : Bytes → Bytes) (iv : Bytes) : chainAfter E iv [] = iv := by
  simp [chainAfter, toBlocks_nil, chainBlocks]

theorem cbcCore_append (E : Bytes → Bytes) (iv p1 p2 : Bytes) (h : p1.length % 16 = 0) :
    cbcCore E iv (p1 ++ p2) = cbcCore E iv p1 ++ cbcCore E (chainAfter E iv p1) p2 := by
  rw [cbcCore, toBlocks_append _ _ h, cbcBlocks_append, List.flatten_append]
  rfl

theorem chainAfter_append (E : Bytes → Bytes) (iv p1 p2 : Bytes) (h : p1.length % 16 = 0) :
    chainAfter E iv (p1 ++ p2) = chainAfter E (chainAfter E iv p1) p2 := by
  rw [chainAfter, toBlocks_append _ _ h, chainBlocks_append]
  rfl

theorem cbcBlocks_count (E : Bytes → Bytes) (iv : Bytes) (bl : List Bytes) :
    (cbcBlocks E iv bl).length = bl.length := by
  induction bl generalizing iv with
  | nil => simp [cbcBlocks]
  | cons b rest ih => simp [cbcBlocks, ih]

theorem cbcCore_length (E : Bytes → Bytes)
    (hE : ∀ b, b.length = 16 → (E b).length = 16) (iv pt : Bytes)
    (hiv : iv.length = 16) (h : pt.length % 16 = 0) :
    (cbcCore E iv pt).length = pt.length := by
  rw [cbcCore, flatten_length_of_blocks _
    (cbcBlocks_length_mem E hE iv _ hiv (toBlocks_length_mem pt h))]
  rw [cbcBlocks_count, toBlocks_count pt h]
  omega

theorem chainAfter_length (E : Bytes → Bytes)
    (hE : ∀ b, b.length = 16 → (E b).length = 16) (iv pt : Bytes)
    (hiv : iv.length = 16) (h : pt.length % 16 = 0) :
    (chainAfter E iv pt).length = 16 :=
  chainBlocks_length E hE iv _ hiv (toBlocks_length_mem pt h)

theorem cbcEncrypt_split (E : Bytes → Bytes) (iv pt : Bytes) (h : pt.length % 16 = 0) :
    cbcEncrypt E iv pt =
      cbcCore E iv pt ++ cbcCore E (chainAfter E iv pt) (List.replicate 16 16) := by
  rw [cbcEncrypt, pkcs7pad_of_aligned pt h, cbcCore_append E iv pt _ h]

theorem cbcEncrypt_length (E : Bytes → Bytes)
    (hE : ∀ b, b.length = 16 → (E b).length = 16) (iv pt : Bytes) (hiv : iv.length = 16) :
    (cbcEncrypt E iv pt).length = pt.length + (16 - pt.length % 16) := by
  rw [cbcEncrypt, cbcCore_length E hE iv _ hiv (pkcs7pad_mod pt), pkcs7pad_length]

theorem cbcEncrypt_length_aligned (E : Bytes → Bytes)
    (hE : ∀ b, b.length = 16 → (E b).length = 16) (iv pt : Bytes)
    (hiv : iv.length = 16) (h : pt.length % 16 = 0) :
    (cbcEncrypt E iv pt).length = pt.length + 16 := by
  rw [cbcEncrypt_length E hE iv pt hiv]
  omega

theorem cbcEncrypt_take (E : Bytes → Bytes)
    (hE : ∀ b, b.length = 16 → (E b).length = 16) (iv pt : Bytes)
    (hiv : iv.length = 16) (h : pt.length % 16 = 0) :
    (cbcEncrypt E iv pt).take pt.length = cbcCore E iv pt := by
  rw [cbcEncrypt_split E iv pt h,
    List.take_left' (cbcCore_length E hE iv pt hiv h)]

theorem cbcCore_drop_last (E : Bytes → Bytes)
    (hE : ∀ b, b.length = 16 → (E b).length = 16) (iv pt : Bytes)
    (hiv : iv.length = 16) (h : pt.length % 16 = 0) (hne : pt ≠ []) :
    (cbcCore E iv pt).drop (pt.length - 16) = chainAfter E iv pt := by
  have hlen : pt.length - 16 = 16 * (toBlocks pt).length - 16 := by
    rw [toBlocks_count pt h]
    omega
  rw [cbcCore, chainAfter, hlen]
  exact flatten_drop_chain E hE iv _ hiv (toBlocks_length_mem pt h)
    (toBlocks_ne_nil pt hne)

theorem cbcEncrypt_compose (E : Bytes → Bytes) (iv p1 p2 : Bytes)
    (h : p1.length % 16 = 0) :
    cbcEncrypt E iv (p1 ++ p2) =
      cbcCore E iv p1 ++ cbcEncrypt E (chainAfter E iv p1) p2 := by
  rw [cbcEncrypt, pkcs7pad_align p1 p2 h, cbcCore_append E iv p1 _ h]
  rfl

theorem chainAfter_compose (E : Bytes → Bytes) (iv p1 p2 : Bytes)
    (h : p1.length % 16 = 0) :
    chainAfter E (chainAfter E iv p1) p2 = chainAfter E iv (p1 ++ p2) :=
  (chainAfter_append E iv p1 p2 h).symm

/-!  Behaviour of the Encrypter operations on a sink that accepts writes. -/

theorem Sink.write_ok (s : Sink) (b : Bytes) (hok : s.ok s.count = true) :
    s.write b = (.ok (),
      { s with events := s.events ++ [SinkEvent.write b], count := s.count + 1 }) := by
  rw [Sink.write, if_pos hok]

theorem init_spec (e : Encrypter) (s : Sink) (hok : s.ok s.count = true) :
    Encrypter.init e s =
      (.ok { e with hmacMsg := e.hmacMsg ++ e.iv },
       { s with events := s.events ++ [SinkEvent.write e.iv], count := s.count + 1 }) := by
  rw [Encrypter.init, Sink.write_ok s e.iv hok]

theorem encrypt_spec (E : Bytes → Bytes)
    (hE : ∀ b, b.length = 16 → (E b).length = 16) (e : Encrypter) (s : Sink)
    (pt : Bytes) (hiv : e.iv.length = 16) (hpt : pt.length % 16 = 0)
    (hok : s.ok s.count = true) :
    Encrypter.encrypt (cbcEncrypt E) e s pt =
      (.ok { iv := chainAfter E e.iv pt, hmacMsg := e.hmacMsg ++ cbcCore E e.iv pt },
       { s with events := s.events ++ [SinkEvent.write (cbcCore E e.iv pt)],
                count := s.count + 1 }) := by
  have hlen := cbcEncrypt_length_aligned E hE e.iv pt hiv hpt
  have htrim : (cbcEncrypt E e.iv pt).take (pt.length + 16 - 16) =
      cbcCore E e.iv pt := by
    rw [Nat.add_sub_cancel, cbcEncrypt_take E hE e.iv pt hiv hpt]
  have hclen := cbcCore_length E hE e.iv pt hiv hpt
  rw [Encrypter.encrypt]
  simp only [hpt, ne_eq, not_true_eq_false, not_false_eq_true, if_neg, if_false,
    reduceIte, hlen, htrim, hclen]
  rcases eq_or_ne pt [] with hpt0 | hpt0
  · subst hpt0
    simp only [cbcCore_nil, chainAfter_nil, List.length_nil, Nat.zero_sub,
      List.drop_nil, List.nil_append, List.drop_zero]
    rw [Sink.write_ok s _ hok]
  · have hdrop := cbcCore_drop_last E hE e.iv pt hiv hpt hpt0
    rw [hdrop, chainAfter_length E hE e.iv pt hiv hpt, ← hiv, List.drop_length,
      List.append_nil]
    rw [Sink.write_ok s _ hok]

theorem finish_spec (E : Bytes → Bytes) (mac : Bytes → Bytes) (e : Encrypter)
    (s : Sink) (pt : Bytes) (hok : ∀ n, s.ok n = true) :
    Encrypter.finish (cbcEncrypt E) mac e s pt =
      (.ok (),
       { s with
          events := s.events ++ [SinkEvent.write (cbcEncrypt E e.iv pt),
            SinkEvent.write (mac (e.hmacMsg ++ cbcEncrypt E e.iv pt))],
          count := s.count + 2 }) := by
  rw [Encrypter.finish]
  simp only [Sink.write, hok, if_true]
  simp [List.append_assoc, Nat.add_assoc]

/-- One inner-loop pass of the pump, on a sink that accepts all writes:
the buffer and chunk contents split into a block-aligned flushed part D
(the concatenation of the full staging buffers that were encrypted) and a
residual buffer strictly below capacity; the ciphertext written is exactly raw
CBC of D from the incoming chaining value. -/
theorem pumpChunk_spec (E : Bytes → Bytes)
    (hE : ∀ b, b.length = 16 → (E b).length = 16) (bs : Nat) (hbs16 : bs % 16 = 0) :
    ∀ (n : Nat) (chunk : Bytes), chunk.length = n →
    ∀ (e : Encrypter) (buf : Bytes) (hbuf : buf.length < bs) (s : Sink),
      e.iv.length = 16 → (∀ k, s.ok k = true) →
      ∃ (D buf2 : Bytes) (h2 : buf2.length < bs) (ws : List Bytes),
        pumpChunk (cbcEncrypt E) bs e buf s chunk hbuf =
          (.ok ({ iv := chainAfter E e.iv D,
                  hmacMsg := e.hmacMsg ++ cbcCore E e.iv D }, ⟨buf2, h2⟩),
           { ok := s.ok, events := s.events ++ ws.map SinkEvent.write,
             count := s.count + ws.length }) ∧
        ws.flatten = cbcCore E e.iv D ∧
        D.length % 16 = 0 ∧
        D ++ buf2 = buf ++ chunk := by
  intro n
  induction n using Nat.strong_induction_on with
  | _ n ih =>
  intro chunk hn e buf hbuf s hiv hok
  have hamtle : min (bs - buf.length) chunk.length ≤ chunk.length :=
    Nat.min_le_right _ _
  have htakelen : (chunk.take (min (bs - buf.length) chunk.length)).length
      = min (bs - buf.length) chunk.length := by
    simp [List.length_take]
  by_cases hfull : (buf ++ chunk.take (min (bs - buf.length) chunk.length)).length = bs
  · have halign :
        (buf ++ chunk.take (min (bs - buf.length) chunk.length)).length % 16 = 0 := by
      rw [hfull]
      exact hbs16
    rw [pumpChunk, dif_pos hfull, encrypt_spec E hE e s _ hiv halign (hok s.count)]
    by_cases hrem : min (bs - buf.length) chunk.length < chunk.length
    · have hamtpos : 0 < min (bs - buf.length) chunk.length := by omega
      have hlt : (chunk.drop (min (bs - buf.length) chunk.length)).length < n := by
        simp only [List.length_drop]
        omega
      have hiv1 : (chainAfter E e.iv
          (buf ++ chunk.take (min (bs - buf.length) chunk.length))).length = 16 :=
        chainAfter_length E hE _ _ hiv halign
      obtain ⟨D1, buf2, h2, ws1, heq, hfl, hDal, hcat⟩ :=
        ih (chunk.drop (min (bs - buf.length) chunk.length)).length hlt
          (chunk.drop (min (bs - buf.length) chunk.length)) rfl
          { iv := chainAfter E e.iv (buf ++ chunk.take (min (bs - buf.length) chunk.length)),
            hmacMsg := e.hmacMsg ++
              cbcCore E e.iv (buf ++ chunk.take (min (bs - buf.length) chunk.length)) }
          [] (by simp only [List.length_nil]; omega)
          { ok := s.ok,
            events := s.events ++ [SinkEvent.write (cbcCore E e.iv
              (buf ++ chunk.take (min (bs - buf.length) chunk.length)))],
            count := s.count + 1 }
          hiv1 (fun k => hok k)
      refine ⟨(buf ++ chunk.take (min (bs - buf.length) chunk.length)) ++ D1, buf2, h2,
        cbcCore E e.iv (buf ++ chunk.take (min (bs - buf.length) chunk.length)) :: ws1,
        ?_, ?_, ?_, ?_⟩
      · dsimp only
        rw [dif_pos hrem]
        refine heq.trans ?_
        dsimp only
        rw [chainAfter_append E e.iv _ _ halign, cbcCore_append E e.iv _ _ halign]
        simp only [Prod.mk.injEq, Except.ok.injEq, Encrypter.mk.injEq, Subtype.mk.injEq,
          Sink.mk.injEq, List.append_assoc, List.map_cons, List.length_cons,
          List.cons_append, List.singleton_append]
        repeat' apply And.intro
        all_goals first
        | trivial
        | omega
      · rw [cbcCore_append E e.iv _ _ halign]
        simp only [List.flatten_cons, hfl]
      · rw [List.length_append, hfull]
        omega
      · rw [List.append_assoc, hcat]
        simp
    · refine ⟨buf ++ chunk.take (min (bs - buf.length) chunk.length), [],
        by simp only [List.length_nil]; omega,
        [cbcCore E e.iv (buf ++ chunk.take (min (bs - buf.length) chunk.length))],
        ?_, by simp, by rw [hfull]; omega, ?_⟩
      · dsimp only
        rw [dif_neg hrem]
        simp
      · have : min (bs - buf.length) chunk.length = chunk.length := by omega
        rw [List.append_nil, this, List.take_length]
  · by_cases hrem : min (bs - buf.length) chunk.length < chunk.length
    · exfalso
      rw [List.length_append, htakelen] at hfull
      omega
    · have hamt : min (bs - buf.length) chunk.length = chunk.length := by omega
      have hlen2 : (buf ++ chunk.take (min (bs - buf.length) chunk.length)).length < bs := by
        rw [List.length_append, htakelen]
        rw [List.length_append, htakelen] at hfull
        omega
      refine ⟨[], buf ++ chunk.take (min (bs - buf.length) chunk.length), hlen2, [],
        ?_, by simp [cbcCore_nil], by simp, by simp [hamt, List.take_length]⟩
      rw [pumpChunk, dif_neg hfull, dif_neg hrem]
      simp [chainAfter_nil, cbcCore_nil]

/-- The whole source loop on a sink that accepts all writes: same shape as
the single-chunk lemma, with the source contents concatenated. -/
theorem pumpSource_spec (E : Bytes → Bytes)
    (hE : ∀ b, b.length = 16 → (E b).length = 16) (bs : Nat) (hbs16 : bs % 16 = 0) :
    ∀ (chunks : List Bytes) (e : Encrypter) (buf : Bytes) (hbuf : buf.length < bs)
      (s : Sink),
      e.iv.length = 16 → (∀ k, s.ok k = true) →
      ∃ (D buf2 : Bytes) (h2 : buf2.length < bs) (ws : List Bytes),
        pumpSource (cbcEncrypt E) bs e buf s hbuf (chunks.map Except.ok) =
          (.ok ({ iv := chainAfter E e.iv D,
                  hmacMsg := e.hmacMsg ++ cbcCore E e.iv D }, ⟨buf2, h2⟩),
           { ok := s.ok, events := s.events ++ ws.map SinkEvent.write,
             count := s.count + ws.length }) ∧
        ws.flatten = cbcCore E e.iv D ∧
        D.length % 16 = 0 ∧
        D ++ buf2 = buf ++ chunks.flatten := by
  intro chunks
  induction chunks with
  | nil =>
    intro e buf hbuf s hiv hok
    refine ⟨[], buf, hbuf, [], ?_, by simp [cbcCore_nil], by simp, by simp⟩
    simp only [List.map_nil, pumpSource]
    simp [chainAfter_nil, cbcCore_nil]
  | cons c rest ih =>
    intro e buf hbuf s hiv hok
    obtain ⟨D1, buf1, h1, ws1, heq1, hfl1, hal1, hcat1⟩ :=
      pumpChunk_spec E hE bs hbs16 c.length c rfl e buf hbuf s hiv hok
    have hiv1 : (chainAfter E e.iv D1).length = 16 :=
      chainAfter_length E hE _ _ hiv hal1
    obtain ⟨D2, buf2, h2, ws2, heq2, hfl2, hal2, hcat2⟩ :=
      ih { iv := chainAfter E e.iv D1, hmacMsg := e.hmacMsg ++ cbcCore E e.iv D1 }
        buf1 h1
        { ok := s.ok, events := s.events ++ ws1.map SinkEvent.write,
          count := s.count + ws1.length }
        hiv1 (fun k => hok k)
    refine ⟨D1 ++ D2, buf2, h2, ws1 ++ ws2, ?_, ?_, ?_, ?_⟩
    · simp only [List.map_cons, pumpSource]
      rw [heq1]
      dsimp only
      refine heq2.trans ?_
      dsimp only
      rw [chainAfter_append E e.iv _ _ hal1, cbcCore_append E e.iv _ _ hal1]
      simp only [Prod.mk.injEq, Except.ok.injEq, Encrypter.mk.injEq, Subtype.mk.injEq,
        Sink.mk.injEq, List.append_assoc, List.map_append, List.length_append]
      repeat' apply And.intro
      all_goals first
      | trivial
      | omega
    · rw [cbcCore_append E e.iv _ _ hal1, List.flatten_append, hfl1]
      simp only [hfl2]
    · rw [List.length_append]
      omega
    · rw [List.append_assoc, hcat2, ← List.append_assoc, hcat1, List.flatten_cons,
        List.append_assoc]

/-- Main characterization of streamEncrypt on the happy path (a source that
delivers its chunks, a sink that accepts all writes, an aligned buffer size,
the genuine CBC one-shot primitive): the run succeeds and the trace is a list
of writes followed by one close, whose payload is exactly
IV, then one-shot CBC of the whole plaintext under that IV, then the MAC of
IV plus ciphertext. -/
theorem streamEncrypt_spec (E : Bytes → Bytes)
    (hE : ∀ bl, bl.length = 16 → (E bl).length = 16) (mac : Bytes → Bytes)
    (iv0 : Bytes) (chunks : List Bytes) (bsz : Option Nat)
    (hiv : iv0.length = 16) (hb : effBufferSize bsz % 16 = 0) :
    ∃ ws : List Bytes,
      streamEncrypt (cbcEncrypt E) mac { iv := iv0, hmacMsg := [] }
          (chunks.map Except.ok) (fun _ => true) bsz =
        (.ok (), ws.map SinkEvent.write ++ [SinkEvent.close]) ∧
      ws.flatten = iv0 ++ cbcEncrypt E iv0 chunks.flatten ++
        mac (iv0 ++ cbcEncrypt E iv0 chunks.flatten) := by
  obtain ⟨D, buf2, h2, ws1, heq, hfl, hal, hcat⟩ :=
    pumpSource_spec E hE (effBufferSize bsz) hb chunks
      { iv := iv0, hmacMsg := [] ++ iv0 } []
      (by
        simp only [List.length_nil]
        cases bsz with
        | none => simp [effBufferSize]
        | some n =>
          simp only [effBufferSize]
          split <;> omega)
      { ok := fun _ => true, events := [] ++ [SinkEvent.write iv0], count := 0 + 1 }
      hiv (fun _ => rfl)
  have hcap : chunks.flatten = D ++ buf2 := by
    rw [hcat]
    simp
  refine ⟨iv0 :: (ws1 ++ [cbcEncrypt E (chainAfter E iv0 D) buf2,
    mac ((iv0 ++ cbcCore E iv0 D) ++ cbcEncrypt E (chainAfter E iv0 D) buf2)]), ?_, ?_⟩
  · rw [streamEncrypt, if_neg (by simp [hb]), streamEncryptCore]
    rw [init_spec { iv := iv0, hmacMsg := [] }
      { ok := fun _ => true, events := [], count := 0 } rfl]
    dsimp only
    rw [heq]
    dsimp only
    rw [finish_spec E mac _ _ buf2 (fun _ => rfl)]
    dsimp only
    simp [List.append_assoc]
  · rw [hcap, cbcEncrypt_compose E iv0 D buf2 hal]
    simp only [List.flatten_cons, List.flatten_append, hfl]
    simp [List.append_assoc]

/-- A sequence of aligned non-final encrypt calls on an all-accepting sink:
writes exactly the raw CBC of the concatenated buffers and chains through. -/
theorem encryptList_spec (E : Bytes → Bytes)
    (hE : ∀ bl, bl.length = 16 → (E bl).length = 16) :
    ∀ (bufs : List Bytes) (e : Encrypter) (s : Sink),
      (∀ pt ∈ bufs, pt.length % 16 = 0) → e.iv.length = 16 →
      (∀ k, s.ok k = true) →
      ∃ cts : List Bytes,
        encryptList (cbcEncrypt E) e s bufs =
          (.ok { iv := chainAfter E e.iv bufs.flatten,
                 hmacMsg := e.hmacMsg ++ cbcCore E e.iv bufs.flatten },
           { ok := s.ok, events := s.events ++ cts.map SinkEvent.write,
             count := s.count + cts.length }) ∧
        cts.flatten = cbcCore E e.iv bufs.flatten := by
  intro bufs
  induction bufs with
  | nil =>
    intro e s hal hiv hok
    refine ⟨[], ?_, by simp [cbcCore_nil]⟩
    simp [encryptList, chainAfter_nil, cbcCore_nil]
  | cons pt rest ih =>
    intro e s hal hiv hok
    have hpt : pt.length % 16 = 0 := hal pt (by simp)
    rw [encryptList, encrypt_spec E hE e s pt hiv hpt (hok s.count)]
    dsimp only
    obtain ⟨cts, heq, hfl⟩ :=
      ih { iv := chainAfter E e.iv pt, hmacMsg := e.hmacMsg ++ cbcCore E e.iv pt }
        { ok := s.ok, events := s.events ++ [SinkEvent.write (cbcCore E e.iv pt)],
          count := s.count + 1 }
        (fun x hx => hal x (by simp [hx]))
        (chainAfter_length E hE e.iv pt hiv hpt) (fun k => hok k)
    refine ⟨cbcCore E e.iv pt :: cts, ?_, ?_⟩
    · refine heq.trans ?_
      dsimp only
      rw [List.flatten_cons, chainAfter_append E e.iv _ _ hpt,
        cbcCore_append E e.iv _ _ hpt]
      simp only [Prod.mk.injEq, Except.ok.injEq, Encrypter.mk.injEq,
        Sink.mk.injEq, List.append_assoc, List.map_cons, List.length_cons,
        List.cons_append, List.singleton_append]
      repeat' apply And.intro
      all_goals first
      | trivial
      | omega
    · simp only [List.flatten_cons]
      rw [cbcCore_append E e.iv _ _ hpt, hfl]

/-- One complete session (init, aligned encrypt calls, finish) on a fresh
Encrypter and an all-accepting sink: the write trace is the IV, the
ciphertext chunks, and finally the MAC of IV plus all ciphertext; the
ciphertext concatenation is one-shot CBC of the whole plaintext. -/
theorem runSession_spec (E : Bytes → Bytes)
    (hE : ∀ bl, bl.length = 16 → (E bl).length = 16) (mac : Bytes → Bytes)
    (iv0 : Bytes) (bufs : List Bytes) (tail : Bytes) (s : Sink)
    (hiv : iv0.length = 16) (hal : ∀ pt ∈ bufs, pt.length % 16 = 0)
    (hok : ∀ k, s.ok k = true) :
    ∃ cts : List Bytes,
      runSession (cbcEncrypt E) mac { iv := iv0, hmacMsg := [] } s bufs tail =
        (.ok (),
         { ok := s.ok,
           events := s.events ++
             ((iv0 :: cts) ++ [mac (iv0 ++ cts.flatten)]).map SinkEvent.write,
           count := s.count + (cts.length + 2) }) ∧
      cts.flatten = cbcEncrypt E iv0 (bufs.flatten ++ tail) := by
  obtain ⟨cts1, heq, hfl⟩ :=
    encryptList_spec E hE bufs { iv := iv0, hmacMsg := [] ++ iv0 }
      { ok := s.ok, events := s.events ++ [SinkEvent.write iv0], count := s.count + 1 }
      hal hiv (fun k => hok k)
  refine ⟨cts1 ++ [cbcEncrypt E (chainAfter E iv0 bufs.flatten) tail], ?_, ?_⟩
  · have step1 : runSession (cbcEncrypt E) mac { iv := iv0, hmacMsg := [] } s bufs tail
        = Encrypter.finish (cbcEncrypt E) mac
            { iv := chainAfter E iv0 bufs.flatten,
              hmacMsg := ([] ++ iv0) ++ cbcCore E iv0 bufs.flatten }
            { ok := s.ok,
              events := (s.events ++ [SinkEvent.write iv0]) ++ cts1.map SinkEvent.write,
              count := (s.count + 1) + cts1.length } tail := by
      rw [runSession, init_spec { iv := iv0, hmacMsg := [] } s (hok s.count)]
      dsimp only
      rw [heq]
    refine step1.trans ((finish_spec E mac _ _ tail ?_).trans ?_)
    · intro k
      exact hok k
    · dsimp only
      rw [List.flatten_append, hfl]
      simp only [Prod.mk.injEq, Sink.mk.injEq, List.append_assoc, List.map_append,
        List.map_cons, List.length_append, List.length_cons, List.map_nil,
        List.length_nil, List.cons_append, List.nil_append, List.singleton_append,
        List.flatten_cons, List.flatten_nil, List.append_nil]
      repeat' apply And.intro
      all_goals first
      | trivial
      | omega
  · rw [List.flatten_append, hfl]
    simp only [List.flatten_cons, List.flatten_nil, List.append_nil]
    rw [← cbcEncrypt_compose E iv0 bufs.flatten tail
      (by
        have : ∀ l : List Bytes, (∀ pt ∈ l, pt.length % 16 = 0) →
            l.flatten.length % 16 = 0 := by
          intro l
          induction l with
          | nil => simp
          | cons a t iht =>
            intro hl
            rw [List.flatten_cons, List.length_append]
            have h1 := hl a (by simp)
            have h2 := iht (fun x hx => hl x (by simp [hx]))
            omega
        exact this bufs hal)]

/-!  Trace-shape lemmas: every operation after the writer is acquired only
appends write events, on every path, success or failure; the close event is
appended exactly once by the finally block of streamEncrypt. -/

theorem writtenBytes_writes (ws : List Bytes) :
    writtenBytes (ws.map SinkEvent.write) = ws.flatten := by
  induction ws with
  | nil => simp [writtenBytes]
  | cons w rest ih =>
    simp only [writtenBytes, List.map_cons, List.flatten_cons] at ih ⊢
    rw [ih]
    rfl

theorem writtenBytes_writes_close (ws : List Bytes) :
    writtenBytes (ws.map SinkEvent.write ++ [SinkEvent.close]) = ws.flatten := by
  have h1 : writtenBytes (ws.map SinkEvent.write ++ [SinkEvent.close]) =
      writtenBytes (ws.map SinkEvent.write) ++ writtenBytes [SinkEvent.close] := by
    simp [writtenBytes]
  rw [h1, writtenBytes_writes]
  simp [writtenBytes, SinkEvent.payload]

theorem write_events (s : Sink) (b : Bytes) :
    ∃ ws : List Bytes, (s.write b).2.events = s.events ++ ws.map SinkEvent.write := by
  rw [Sink.write]
  by_cases hw : s.ok s.count = true
  · rw [if_pos hw]
    exact ⟨[b], by simp⟩
  · rw [if_neg hw]
    exact ⟨[], by simp⟩

theorem init_events (e : Encrypter) (s : Sink) :
    ∃ ws : List Bytes,
      (Encrypter.init e s).2.events = s.events ++ ws.map SinkEvent.write := by
  rw [Encrypter.init, Sink.write]
  by_cases hw : s.ok s.count = true
  · rw [if_pos hw]
    exact ⟨[e.iv], by simp⟩
  · rw [if_neg hw]
    exact ⟨[], by simp⟩

theorem encrypt_events (oneShot : Bytes → Bytes → Bytes) (e : Encrypter) (s : Sink)
    (pt : Bytes) :
    ∃ ws : List Bytes,
      (Encrypter.encrypt oneShot e s pt).2.events =
        s.events ++ ws.map SinkEvent.write := by
  rw [Encrypter.encrypt]
  by_cases ha : pt.length % 16 ≠ 0
  · rw [if_pos ha]
    exact ⟨[], by simp⟩
  · rw [if_neg ha]
    dsimp only
    by_cases hi : (oneShot e.iv pt).length ≠ pt.length + 16
    · rw [if_pos hi]
      exact ⟨[], by simp⟩
    · rw [if_neg hi]
      rw [Sink.write]
      by_cases hw : s.ok s.count = true
      · rw [if_pos hw]
        exact ⟨[(oneShot e.iv pt).take ((oneShot e.iv pt).length - 16)], by simp⟩
      · rw [if_neg hw]
        exact ⟨[], by simp⟩

theorem finish_events (oneShot : Bytes → Bytes → Bytes) (mac : Bytes → Bytes)
    (e : Encrypter) (s : Sink) (pt : Bytes) :
    ∃ ws : List Bytes,
      (Encrypter.finish oneShot mac e s pt).2.events =
        s.events ++ ws.map SinkEvent.write := by
  rw [Encrypter.finish]
  rw [Sink.write]
  by_cases hw : s.ok s.count = true
  · rw [if_pos hw]
    dsimp only
    rw [Sink.write]
    by_cases hw2 : s.ok (s.count + 1) = true
    · rw [if_pos hw2]
      exact ⟨[oneShot e.iv pt, mac (e.hmacMsg ++ oneShot e.iv pt)],
        by simp [List.append_assoc]⟩
    · rw [if_neg hw2]
      exact ⟨[oneShot e.iv pt], by simp⟩
  · rw [if_neg hw]
    exact ⟨[], by simp⟩

theorem pumpChunk_events (oneShot : Bytes → Bytes → Bytes) (bs : Nat) :
    ∀ (e : Encrypter) (buf : Bytes) (s : Sink) (chunk : Bytes)
      (hbuf : buf.length < bs),
      ∃ ws : List Bytes,
        (pumpChunk oneShot bs e buf s chunk hbuf).2.events =
          s.events ++ ws.map SinkEvent.write := by
  intro e buf s chunk hbuf
  induction e, buf, s, chunk, hbuf using pumpChunk.induct oneShot bs with
  | case1 e buf s chunk hbuf hfull er s1 henc =>
    obtain ⟨ws, hws⟩ := encrypt_events oneShot e s
      (buf ++ chunk.take (min (bs - buf.length) chunk.length))
    rw [henc] at hws
    refine ⟨ws, ?_⟩
    rw [pumpChunk, dif_pos hfull, henc]
    exact hws
  | case2 e buf s chunk hbuf hfull e1 s1 henc hrem ih =>
    obtain ⟨ws1, hws1⟩ := encrypt_events oneShot e s
      (buf ++ chunk.take (min (bs - buf.length) chunk.length))
    rw [henc] at hws1
    obtain ⟨ws2, hws2⟩ := ih
    refine ⟨ws1 ++ ws2, ?_⟩
    rw [pumpChunk, dif_pos hfull, henc]
    dsimp only
    rw [dif_pos hrem, hws2, hws1]
    simp [List.append_assoc]
  | case3 e buf s chunk hbuf hfull e1 s1 henc hrem =>
    obtain ⟨ws1, hws1⟩ := encrypt_events oneShot e s
      (buf ++ chunk.take (min (bs - buf.length) chunk.length))
    rw [henc] at hws1
    refine ⟨ws1, ?_⟩
    rw [pumpChunk, dif_pos hfull, henc]
    dsimp only
    rw [dif_neg hrem]
    exact hws1
  | case4 e buf s chunk hbuf hfull hrem ih =>
    obtain ⟨ws, hws⟩ := ih
    refine ⟨ws, ?_⟩
    rw [pumpChunk, dif_neg hfull, dif_pos hrem]
    exact hws
  | case5 e buf s chunk hbuf hfull hrem =>
    refine ⟨[], ?_⟩
    rw [pumpChunk, dif_neg hfull, dif_neg hrem]
    simp

theorem pumpSource_events (oneShot : Bytes → Bytes → Bytes) (bs : Nat) :
    ∀ (e : Encrypter) (buf : Bytes) (s : Sink) (hbuf : buf.length < bs)
      (source : List (Except Unit Bytes)),
      ∃ ws : List Bytes,
        (pumpSource oneShot bs e buf s hbuf source).2.events =
          s.events ++ ws.map SinkEvent.write := by
  intro e buf s hbuf source
  induction e, buf, s, hbuf, source using pumpSource.induct oneShot bs with
  | case1 e buf s hbuf _ =>
    refine ⟨[], ?_⟩
    rw [pumpSource]
    simp
  | case2 e buf s hbuf a rest _ =>
    refine ⟨[], ?_⟩
    rw [pumpSource]
    simp
  | case3 e buf s hbuf c rest er s1 hpc _ =>
    obtain ⟨ws, hws⟩ := pumpChunk_events oneShot bs e buf s c hbuf
    rw [hpc] at hws
    refine ⟨ws, ?_⟩
    rw [pumpSource, hpc]
    exact hws
  | case4 e buf s hbuf c rest e1 buf1 h1 s1 hpc _ ih =>
    obtain ⟨ws1, hws1⟩ := pumpChunk_events oneShot bs e buf s c hbuf
    rw [hpc] at hws1
    obtain ⟨ws2, hws2⟩ := ih
    refine ⟨ws1 ++ ws2, ?_⟩
    rw [pumpSource, hpc]
    dsimp only
    rw [hws2, hws1]
    simp [List.append_assoc]

/-!  The claims. -/

/-- C3: a non-final encrypt call rejects non-block-aligned plaintext with the
alignment error; on aligned input, if the one-shot primitive does not return
exactly plaintext.length + 16 bytes it fails with the integrity error;
otherwise exactly the first plaintext.length bytes of the one-shot output are
written to the sink (one write event). -/
theorem C3_encrypt_oneshot_contract (oneShot : Bytes → Bytes → Bytes)
    (e : Encrypter) (s : Sink) (pt : Bytes) :
    (pt.length % 16 ≠ 0 →
      Encrypter.encrypt oneShot e s pt = (.error .alignment, s)) ∧
    (pt.length % 16 = 0 → (oneShot e.iv pt).length ≠ pt.length + 16 →
      Encrypter.encrypt oneShot e s pt = (.error .integrity, s)) ∧
    (pt.length % 16 = 0 → (oneShot e.iv pt).length = pt.length + 16 →
      s.ok s.count = true →
      ∃ e2 : Encrypter,
        Encrypter.encrypt oneShot e s pt =
          (.ok e2,
           { s with
              events := s.events ++
                [SinkEvent.write ((oneShot e.iv pt).take pt.length)],
              count := s.count + 1 })) := by
  refine ⟨fun h => by rw [Encrypter.encrypt, if_pos h], fun h1 h2 => ?_,
    fun h1 h2 hok => ?_⟩
  · rw [Encrypter.encrypt, if_neg (by omega)]
    rw [if_pos h2]
  · rw [Encrypter.encrypt, if_neg (by omega)]
    rw [if_neg (by omega)]
    dsimp only
    rw [Sink.write, if_pos hok]
    rw [h2, Nat.add_sub_cancel]
    exact ⟨_, rfl⟩

/-- C3 witness: a concrete aligned 16-byte plaintext with a primitive that
appends one block; exactly the primitive output minus its last block is
written. -/
theorem C3_encrypt_oneshot_contract_witness :
    ∃ e2 : Encrypter,
      Encrypter.encrypt (fun _ pt => pt ++ List.replicate 16 0)
          { iv := List.replicate 16 0, hmacMsg := [] } alwaysOkSink
          (List.replicate 16 1) =
        (.ok e2,
         { ok := fun _ => true,
           events := [SinkEvent.write (List.replicate 16 1)], count := 1 }) :=
  (C3_encrypt_oneshot_contract (fun _ pt => pt ++ List.replicate 16 0)
    { iv := List.replicate 16 0, hmacMsg := [] } alwaysOkSink
    (List.replicate 16 1)).2.2 (by decide) (by decide) rfl

/-- C6: encryptedLength rejects a length exactly when it exceeds
MAX_PLAINTEXT_LENGTH, which is the safe-integer maximum minus 32, 16 and 16;
the rejection is independent of the formula, and below the bound the exact
formula value is returned and stays within the safe-integer range. -/
theorem C6_encryptedLength_overflow (e : Encrypter) (L : Nat)
    (hiv : e.iv.length = 16) :
    MAX_PLAINTEXT_LENGTH = MAX_SAFE_INTEGER - 32 - 16 - 16 ∧
    (L > MAX_PLAINTEXT_LENGTH ↔
      e.encryptedLength L = .error .lengthOverflow) ∧
    (L ≤ MAX_PLAINTEXT_LENGTH →
      e.encryptedLength L = .ok (16 + ((L + 1 + 15) / 16) * 16 + 32) ∧
      16 + ((L + 1 + 15) / 16) * 16 + 32 ≤ MAX_SAFE_INTEGER) := by
  refine ⟨rfl, ⟨fun h => by rw [Encrypter.encryptedLength, if_pos h], fun h => ?_⟩,
    fun h => ⟨?_, ?_⟩⟩
  · by_contra hgt
    rw [Encrypter.encryptedLength, if_neg hgt] at h
    exact Except.noConfusion h
  · rw [Encrypter.encryptedLength, if_neg (by omega), hiv]
  · rw [MAX_PLAINTEXT_LENGTH, MAX_SAFE_INTEGER] at h
    rw [MAX_SAFE_INTEGER]
    omega

/-- C6 witness at L = 32 with a valid 16-byte IV. -/
theorem C6_encryptedLength_overflow_witness :
    MAX_PLAINTEXT_LENGTH = MAX_SAFE_INTEGER - 32 - 16 - 16 ∧
    (32 > MAX_PLAINTEXT_LENGTH ↔
      Encrypter.encryptedLength { iv := List.replicate 16 0, hmacMsg := [] } 32 =
        .error .lengthOverflow) ∧
    (32 ≤ MAX_PLAINTEXT_LENGTH →
      Encrypter.encryptedLength { iv := List.replicate 16 0, hmacMsg := [] } 32 =
        .ok (16 + ((32 + 1 + 15) / 16) * 16 + 32) ∧
      16 + ((32 + 1 + 15) / 16) * 16 + 32 ≤ MAX_SAFE_INTEGER) :=
  C6_encryptedLength_overflow { iv := List.replicate 16 0, hmacMsg := [] } 32
    (by simp)

/-- C7: a buffer size that is not a multiple of 16 makes streamEncrypt fail
with the alignment error immediately: the result is the same for every
source and sink, and the trace is empty, so nothing was read or written and
no writer was acquired. -/
theorem C7_bufferSize_alignment (oneShot : Bytes → Bytes → Bytes)
    (mac : Bytes → Bytes) (e : Encrypter) (source : List (Except Unit Bytes))
    (sinkOk : Nat → Bool) (n : Nat) (h : n % 16 ≠ 0) :
    streamEncrypt oneShot mac e source sinkOk (some n) =
      (.error .alignment, []) := by
  have hn : n ≠ 0 := by omega
  have hb : effBufferSize (some n) % 16 ≠ 0 := by
    rw [effBufferSize, if_neg hn]
    exact h
  rw [streamEncrypt, if_pos hb]

/-- C7 witness at bufferSize 8. -/
theorem C7_bufferSize_alignment_witness :
    streamEncrypt (fun _ _ => []) (fun _ => []) { iv := [], hmacMsg := [] } []
        (fun _ => true) (some 8) = (.error .alignment, []) :=
  C7_bufferSize_alignment (fun _ _ => []) (fun _ => [])
    { iv := [], hmacMsg := [] } [] (fun _ => true) 8 (by decide)

/-- C9: a zero bufferSize argument is falsy, so it is replaced by the 1 MiB
default: the run is identical to the run with the parameter omitted, and the
effective buffer size is 1048576, which passes the alignment check. -/
theorem C9_bufferSize_zero_default (oneShot : Bytes → Bytes → Bytes)
    (mac : Bytes → Bytes) (e : Encrypter) (source : List (Except Unit Bytes))
    (sinkOk : Nat → Bool) :
    streamEncrypt oneShot mac e source sinkOk (some 0) =
      streamEncrypt oneShot mac e source sinkOk none ∧
    effBufferSize (some 0) = 1024 * 1024 ∧
    effBufferSize (some 0) % 16 = 0 :=
  ⟨rfl, rfl, by decide⟩

/-- C10: on non-aligned plaintext the non-final encrypt call fails with the
alignment error for every one-shot primitive (so the primitive is never
consulted), the sink is returned unchanged (no write event), and no new
session state is produced. -/
theorem C10_encrypt_alignment_atomic (oneShot : Bytes → Bytes → Bytes)
    (e : Encrypter) (s : Sink) (pt : Bytes) (h : pt.length % 16 ≠ 0) :
    Encrypter.encrypt oneShot e s pt = (.error .alignment, s) := by
  rw [Encrypter.encrypt, if_pos h]

/-- C10 witness: a 1-byte plaintext. -/
theorem C10_encrypt_alignment_atomic_witness :
    Encrypter.encrypt (fun _ _ => []) { iv := List.replicate 16 0, hmacMsg := [] }
        alwaysOkSink [0] = (.error .alignment, alwaysOkSink) :=
  C10_encrypt_alignment_atomic (fun _ _ => [])
    { iv := List.replicate 16 0, hmacMsg := [] } alwaysOkSink [0] (by decide)

/-- C1: for a plaintext of any length up to MAX_PLAINTEXT_LENGTH, a valid
16-byte IV, a block-preserving cipher and a 32-byte MAC, streamEncrypt over
any chunking of the input succeeds and writes exactly encryptedLength(L)
bytes to the sink. -/
theorem C1_streamEncrypt_output_length (E mac : Bytes → Bytes) (iv0 : Bytes)
    (chunks : List Bytes) (bsz : Option Nat)
    (hE : ∀ bl, bl.length = 16 → (E bl).length = 16)
    (hmac32 : ∀ m, (mac m).length = 32)
    (hiv : iv0.length = 16) (hb : effBufferSize bsz % 16 = 0)
    (hL : chunks.flatten.length ≤ MAX_PLAINTEXT_LENGTH) :
    (streamEncrypt (cbcEncrypt E) mac { iv := iv0, hmacMsg := [] }
        (chunks.map Except.ok) (fun _ => true) bsz).1 = .ok () ∧
    Encrypter.encryptedLength { iv := iv0, hmacMsg := [] } chunks.flatten.length =
      .ok (writtenBytes (streamEncrypt (cbcEncrypt E) mac { iv := iv0, hmacMsg := [] }
        (chunks.map Except.ok) (fun _ => true) bsz).2).length := by
  obtain ⟨ws, heq, hfl⟩ := streamEncrypt_spec E hE mac iv0 chunks bsz hiv hb
  rw [heq]
  refine ⟨rfl, ?_⟩
  rw [Encrypter.encryptedLength, if_neg (by omega)]
  dsimp only
  rw [writtenBytes_writes_close, hfl]
  simp only [List.length_append, cbcEncrypt_length E hE iv0 _ hiv, hmac32, hiv,
    Except.ok.injEq]
  have hm : chunks.flatten.length % 16 < 16 := by omega
  omega

/-- C1 witness: a 3-byte plaintext in one chunk with the default buffer
size; the output length obeys the formula (here 64 bytes). -/
theorem C1_streamEncrypt_output_length_witness :
    (streamEncrypt (cbcEncrypt (fun _ => List.replicate 16 0))
        (fun _ => List.replicate 32 0) { iv := List.replicate 16 0, hmacMsg := [] }
        ([[1, 2, 3]].map Except.ok) (fun _ => true) none).1 = .ok () ∧
    Encrypter.encryptedLength { iv := List.replicate 16 0, hmacMsg := [] }
        ([[1, 2, 3]] : List Bytes).flatten.length =
      .ok (writtenBytes (streamEncrypt (cbcEncrypt (fun _ => List.replicate 16 0))
        (fun _ => List.replicate 32 0) { iv := List.replicate 16 0, hmacMsg := [] }
        ([[1, 2, 3]].map Except.ok) (fun _ => true) none).2).length :=
  C1_streamEncrypt_output_length (fun _ => List.replicate 16 0)
    (fun _ => List.replicate 32 0) (List.replicate 16 0) [[1, 2, 3]] none
    (fun _ _ => by simp) (fun _ => by simp) (by simp) (by decide) (by decide)

/-- C2: the bytes streamEncrypt writes depend only on the concatenated
plaintext, not on its partition into source chunks, and both runs succeed:
output is a deterministic function of IV, keys and plaintext. -/
theorem C2_chunking_independence (E mac : Bytes → Bytes) (iv0 : Bytes)
    (chunks1 chunks2 : List Bytes) (bsz : Option Nat)
    (hE : ∀ bl, bl.length = 16 → (E bl).length = 16)
    (hiv : iv0.length = 16) (hb : effBufferSize bsz % 16 = 0)
    (hsame : chunks1.flatten = chunks2.flatten) :
    (streamEncrypt (cbcEncrypt E) mac { iv := iv0, hmacMsg := [] }
        (chunks1.map Except.ok) (fun _ => true) bsz).1 = .ok () ∧
    (streamEncrypt (cbcEncrypt E) mac { iv := iv0, hmacMsg := [] }
        (chunks2.map Except.ok) (fun _ => true) bsz).1 = .ok () ∧
    writtenBytes (streamEncrypt (cbcEncrypt E) mac { iv := iv0, hmacMsg := [] }
        (chunks1.map Except.ok) (fun _ => true) bsz).2 =
      writtenBytes (streamEncrypt (cbcEncrypt E) mac { iv := iv0, hmacMsg := [] }
        (chunks2.map Except.ok) (fun _ => true) bsz).2 := by
  obtain ⟨ws1, heq1, hfl1⟩ := streamEncrypt_spec E hE mac iv0 chunks1 bsz hiv hb
  obtain ⟨ws2, heq2, hfl2⟩ := streamEncrypt_spec E hE mac iv0 chunks2 bsz hiv hb
  rw [heq1, heq2]
  refine ⟨rfl, rfl, ?_⟩
  rw [writtenBytes_writes_close, writtenBytes_writes_close, hfl1, hfl2, hsame]

/-- C2 witness: the same 3 bytes fed as three 1-byte chunks and as one
3-byte chunk produce the same output bytes. -/
theorem C2_chunking_independence_witness :
    (streamEncrypt (cbcEncrypt (fun _ => List.replicate 16 0))
        (fun _ => List.replicate 32 0) { iv := List.replicate 16 0, hmacMsg := [] }
        ([[1], [2], [3]].map Except.ok) (fun _ => true) none).1 = .ok () ∧
    (streamEncrypt (cbcEncrypt (fun _ => List.replicate 16 0))
        (fun _ => List.replicate 32 0) { iv := List.replicate 16 0, hmacMsg := [] }
        ([[1, 2, 3]].map Except.ok) (fun _ => true) none).1 = .ok () ∧
    writtenBytes (streamEncrypt (cbcEncrypt (fun _ => List.replicate 16 0))
        (fun _ => List.replicate 32 0) { iv := List.replicate 16 0, hmacMsg := [] }
        ([[1], [2], [3]].map Except.ok) (fun _ => true) none).2 =
      writtenBytes (streamEncrypt (cbcEncrypt (fun _ => List.replicate 16 0))
        (fun _ => List.replicate 32 0) { iv := List.replicate 16 0, hmacMsg := [] }
        ([[1, 2, 3]].map Except.ok) (fun _ => true) none).2 :=
  C2_chunking_independence (fun _ => List.replicate 16 0)
    (fun _ => List.replicate 32 0) (List.replicate 16 0) [[1], [2], [3]]
    [[1, 2, 3]] none (fun _ _ => by simp) (by simp) (by decide) (by decide)

/-- C4: the chaining value is initialized from the caller IV at
construction; after every successful aligned non-final encrypt call it
equals the last 16 bytes of the ciphertext just written; and the ciphertext
a whole session emits is one-shot CBC of the concatenated plaintext under
the original IV. -/
theorem C4_chaining_invariant (E mac : Bytes → Bytes) (iv0 : Bytes)
    (bufs : List Bytes) (tail : Bytes) (s : Sink)
    (hE : ∀ bl, bl.length = 16 → (E bl).length = 16)
    (hiv : iv0.length = 16) (hal : ∀ pt ∈ bufs, pt.length % 16 = 0)
    (hok : ∀ k, s.ok k = true) :
    Encrypter.create iv0 = .ok { iv := iv0, hmacMsg := [] } ∧
    (∀ (e : Encrypter) (s2 : Sink) (pt : Bytes) (e2 : Encrypter) (s3 : Sink),
      e.iv.length = 16 → pt.length % 16 = 0 → 16 ≤ pt.length →
      s2.ok s2.count = true →
      Encrypter.encrypt (cbcEncrypt E) e s2 pt = (.ok e2, s3) →
      s3.events = s2.events ++ [SinkEvent.write (cbcCore E e.iv pt)] ∧
      e2.iv = (cbcCore E e.iv pt).drop ((cbcCore E e.iv pt).length - 16)) ∧
    (∃ cts : List Bytes,
      runSession (cbcEncrypt E) mac { iv := iv0, hmacMsg := [] } s bufs tail =
        (.ok (),
         { ok := s.ok,
           events := s.events ++
             ((iv0 :: cts) ++ [mac (iv0 ++ cts.flatten)]).map SinkEvent.write,
           count := s.count + (cts.length + 2) }) ∧
      cts.flatten = cbcEncrypt E iv0 (bufs.flatten ++ tail)) := by
  refine ⟨?_, ?_, runSession_spec E hE mac iv0 bufs tail s hiv hal hok⟩
  · rw [Encrypter.create, if_neg (by omega)]
  · intro e s2 pt e2 s3 hiv2 hpt h16 hok2 hstep
    rw [encrypt_spec E hE e s2 pt hiv2 hpt hok2, Prod.mk.injEq,
      Except.ok.injEq] at hstep
    obtain ⟨he2, hs3⟩ := hstep
    have hne : pt ≠ [] := by
      intro hnil
      rw [hnil] at h16
      simp at h16
    constructor
    · rw [← hs3]
    · rw [← he2]
      dsimp only
      rw [cbcCore_length E hE e.iv pt hiv2 hpt,
        cbcCore_drop_last E hE e.iv pt hiv2 hpt hne]

/-- C4 witness: empty session (no encrypt calls, empty tail) on the all-zero
IV. -/
theorem C4_chaining_invariant_witness :
    Encrypter.create (List.replicate 16 0) =
      .ok { iv := List.replicate 16 0, hmacMsg := [] } ∧
    (∀ (e : Encrypter) (s2 : Sink) (pt : Bytes) (e2 : Encrypter) (s3 : Sink),
      e.iv.length = 16 → pt.length % 16 = 0 → 16 ≤ pt.length →
      s2.ok s2.count = true →
      Encrypter.encrypt (cbcEncrypt (fun _ => List.replicate 16 0)) e s2 pt =
        (.ok e2, s3) →
      s3.events = s2.events ++
        [SinkEvent.write (cbcCore (fun _ => List.replicate 16 0) e.iv pt)] ∧
      e2.iv = (cbcCore (fun _ => List.replicate 16 0) e.iv pt).drop
        ((cbcCore (fun _ => List.replicate 16 0) e.iv pt).length - 16)) ∧
    (∃ cts : List Bytes,
      runSession (cbcEncrypt (fun _ => List.replicate 16 0))
          (fun _ => List.replicate 32 0) { iv := List.replicate 16 0, hmacMsg := [] }
          alwaysOkSink [] [] =
        (.ok (),
         { ok := alwaysOkSink.ok,
           events := alwaysOkSink.events ++
             ((List.replicate 16 0 :: cts) ++
               [(fun _ => List.replicate 32 0)
                 (List.replicate 16 0 ++ cts.flatten)]).map SinkEvent.write,
           count := alwaysOkSink.count + (cts.length + 2) }) ∧
      cts.flatten = cbcEncrypt (fun _ => List.replicate 16 0)
        (List.replicate 16 0) (([] : List Bytes).flatten ++ [])) :=
  C4_chaining_invariant (fun _ => List.replicate 16 0)
    (fun _ => List.replicate 32 0) (List.replicate 16 0) [] [] alwaysOkSink
    (fun _ _ => by simp) (by simp) (fun _ h => absurd h (List.not_mem_nil _))
    (fun _ => rfl)

/-- C5: for a complete session the final 32 bytes written are the MAC of
exactly the IV followed by every ciphertext byte emitted, in order,
excluding the tag itself. -/
theorem C5_final_tag (E mac : Bytes → Bytes) (iv0 : Bytes) (bufs : List Bytes)
    (tail : Bytes)
    (hE : ∀ bl, bl.length = 16 → (E bl).length = 16)
    (hmac32 : ∀ m, (mac m).length = 32)
    (hiv : iv0.length = 16) (hal : ∀ pt ∈ bufs, pt.length % 16 = 0) :
    ∃ cts : List Bytes,
      (runSession (cbcEncrypt E) mac { iv := iv0, hmacMsg := [] } alwaysOkSink
          bufs tail).1 = .ok () ∧
      (runSession (cbcEncrypt E) mac { iv := iv0, hmacMsg := [] } alwaysOkSink
          bufs tail).2.events =
        ((iv0 :: cts) ++ [mac (iv0 ++ cts.flatten)]).map SinkEvent.write ∧
      writtenBytes (runSession (cbcEncrypt E) mac { iv := iv0, hmacMsg := [] }
          alwaysOkSink bufs tail).2.events =
        (iv0 ++ cts.flatten) ++ mac (iv0 ++ cts.flatten) ∧
      (writtenBytes (runSession (cbcEncrypt E) mac { iv := iv0, hmacMsg := [] }
          alwaysOkSink bufs tail).2.events).drop
          ((writtenBytes (runSession (cbcEncrypt E) mac { iv := iv0, hmacMsg := [] }
            alwaysOkSink bufs tail).2.events).length - 32) =
        mac (iv0 ++ cts.flatten) := by
  obtain ⟨cts, heq, hfl⟩ :=
    runSession_spec E hE mac iv0 bufs tail alwaysOkSink hiv hal (fun _ => rfl)
  have hev : (runSession (cbcEncrypt E) mac { iv := iv0, hmacMsg := [] }
      alwaysOkSink bufs tail).2.events =
      ((iv0 :: cts) ++ [mac (iv0 ++ cts.flatten)]).map SinkEvent.write := by
    rw [heq]
    simp [alwaysOkSink]
  have hout : writtenBytes (runSession (cbcEncrypt E) mac
      { iv := iv0, hmacMsg := [] } alwaysOkSink bufs tail).2.events =
      (iv0 ++ cts.flatten) ++ mac (iv0 ++ cts.flatten) := by
    rw [hev, writtenBytes_writes]
    simp [List.append_assoc]
  refine ⟨cts, by rw [heq], hev, hout, ?_⟩
  rw [hout]
  have hlen : ((iv0 ++ cts.flatten) ++ mac (iv0 ++ cts.flatten)).length - 32 =
      (iv0 ++ cts.flatten).length := by
    rw [List.length_append, hmac32]
    omega
  rw [hlen, List.drop_left]

/-- C5 witness: the empty session, whose tag is the MAC of the IV and the
single padding block. -/
theorem C5_final_tag_witness :
    ∃ cts : List Bytes,
      (runSession (cbcEncrypt (fun _ => List.replicate 16 0))
          (fun _ => List.replicate 32 0) { iv := List.replicate 16 0, hmacMsg := [] }
          alwaysOkSink [] []).1 = .ok () ∧
      (runSession (cbcEncrypt (fun _ => List.replicate 16 0))
          (fun _ => List.replicate 32 0) { iv := List.replicate 16 0, hmacMsg := [] }
          alwaysOkSink [] []).2.events =
        ((List.replicate 16 0 :: cts) ++
          [(fun _ => List.replicate 32 0)
            (List.replicate 16 0 ++ cts.flatten)]).map SinkEvent.write ∧
      writtenBytes (runSession (cbcEncrypt (fun _ => List.replicate 16 0))
          (fun _ => List.replicate 32 0) { iv := List.replicate 16 0, hmacMsg := [] }
          alwaysOkSink [] []).2.events =
        (List.replicate 16 0 ++ cts.flatten) ++
          (fun _ => List.replicate 32 0) (List.replicate 16 0 ++ cts.flatten) ∧
      (writtenBytes (runSession (cbcEncrypt (fun _ => List.replicate 16 0))
          (fun _ => List.replicate 32 0) { iv := List.replicate 16 0, hmacMsg := [] }
          alwaysOkSink [] []).2.events).drop
          ((writtenBytes (runSession (cbcEncrypt (fun _ => List.replicate 16 0))
            (fun _ => List.replicate 32 0) { iv := List.replicate 16 0, hmacMsg := [] }
            alwaysOkSink [] []).2.events).length - 32) =
        (fun _ => List.replicate 32 0) (List.replicate 16 0 ++ cts.flatten) :=
  C5_final_tag (fun _ => List.replicate 16 0) (fun _ => List.replicate 32 0)
    (List.replicate 16 0) [] [] (fun _ _ => by simp) (fun _ => by simp)
    (by simp) (fun _ h => absurd h (List.not_mem_nil _))

/-- The core of streamEncrypt always produces a trace of writes followed by
exactly one final close, on every path (init, pump or finish may fail). -/
theorem streamEncryptCore_events (oneShot : Bytes → Bytes → Bytes)
    (mac : Bytes → Bytes) (e : Encrypter) (source : List (Except Unit Bytes))
    (sinkOk : Nat → Bool) (bs : Nat) (hbs : 0 < bs) :
    ∃ ws : List Bytes,
      (streamEncryptCore oneShot mac e source sinkOk bs hbs).2 =
        ws.map SinkEvent.write ++ [SinkEvent.close] := by
  rw [streamEncryptCore]
  dsimp only
  obtain ⟨ws1, hws1⟩ := init_events e { ok := sinkOk, events := [], count := 0 }
  split
  next er s1 hinit =>
    rw [hinit] at hws1
    refine ⟨ws1, ?_⟩
    rw [hws1]
    simp
  next e1 s1 hinit =>
    rw [hinit] at hws1
    obtain ⟨ws2, hws2⟩ := pumpSource_events oneShot bs e1 [] s1
      (by simp only [List.length_nil]; exact hbs) source
    split
    next er s2 hpump =>
      have hs2 : s2.events = s1.events ++ ws2.map SinkEvent.write :=
        (congrArg (fun p => p.2.events) hpump).symm.trans hws2
      refine ⟨ws1 ++ ws2, ?_⟩
      rw [hs2, hws1]
      simp [List.append_assoc]
    next e2 buf2 h2 s2 hpump =>
      have hs2 : s2.events = s1.events ++ ws2.map SinkEvent.write :=
        (congrArg (fun p => p.2.events) hpump).symm.trans hws2
      obtain ⟨ws3, hws3⟩ := finish_events oneShot mac e2 s2 buf2
      refine ⟨ws1 ++ ws2 ++ ws3, ?_⟩
      rw [hws3, hs2, hws1]
      simp [List.append_assoc]

/-- C8: once the buffer size passes the alignment check (the writer is
acquired), every run of streamEncrypt ends with the sink closed exactly
once, after all writes, whatever the one-shot primitive does and however
the source or the sink fail; nothing already written is removed. -/
theorem C8_sink_closed_once (oneShot : Bytes → Bytes → Bytes)
    (mac : Bytes → Bytes) (e : Encrypter) (source : List (Except Unit Bytes))
    (sinkOk : Nat → Bool) (bsz : Option Nat)
    (hb : effBufferSize bsz % 16 = 0) :
    ∃ ws : List Bytes,
      (streamEncrypt oneShot mac e source sinkOk bsz).2 =
        ws.map SinkEvent.write ++ [SinkEvent.close] ∧
      ((streamEncrypt oneShot mac e source sinkOk bsz).2).count SinkEvent.close
        = 1 := by
  rw [streamEncrypt, if_neg (by simp [hb])]
  obtain ⟨ws, hws⟩ := streamEncryptCore_events oneShot mac e source sinkOk
    (effBufferSize bsz)
    (by
      cases bsz with
      | none => simp [effBufferSize]
      | some n =>
        simp only [effBufferSize]
        split <;> omega)
  refine ⟨ws, hws, ?_⟩
  rw [hws, List.count_append]
  have hno : SinkEvent.close ∉ ws.map SinkEvent.write := by
    simp
  rw [List.count_eq_zero.mpr hno]
  simp

/-- C8 witness: the empty source with the default buffer size. -/
theorem C8_sink_closed_once_witness :
    ∃ ws : List Bytes,
      (streamEncrypt (fun _ _ => []) (fun _ => [])
          { iv := List.replicate 16 0, hmacMsg := [] } [] (fun _ => true) none).2 =
        ws.map SinkEvent.write ++ [SinkEvent.close] ∧
      ((streamEncrypt (fun _ _ => []) (fun _ => [])
          { iv := List.replicate 16 0, hmacMsg := [] } [] (fun _ => true) none).2).count
        SinkEvent.close = 1 :=
  C8_sink_closed_once (fun _ _ => []) (fun _ => [])
    { iv := List.replicate 16 0, hmacMsg := [] } [] (fun _ => true) none
    (by decide)

end StorageManager
